import Mathlib

/-!
Verification of the continual-learning orchestration logic of
`conv_split_cub_zst.py` (split-CUB zero-shot-transfer experiment driver).

The external tensor backend (`model.*` session ops) is abstracted as an
oracle producing per-example correctness bits / per-step loss values; all
control flow, indexing, masking, chunking and bookkeeping is translated
directly from the Python source.
-/

namespace ConvSplitCub

/-- Python slice `xs[start : start + len]` for a nonnegative start index
(clipping at the end of the list, as Python does). -/
def pySlice (xs : List α) (start len : ℕ) : List α :=
  (xs.drop start).take len

/-- Number of `true` entries in a list of correctness bits; models
`np.sum(sess.run(model.correct_predictions, ...))` for one chunk. -/
def countTrue (bits : List Bool) : ℕ :=
  (bits.filter (fun b => b)).length

/-- `np.zeros_like(class_attrs)`: a matrix of the same shape with all
entries zero. -/
def zerosLike (m : List (List ℚ)) : List (List ℚ) :=
  m.map (fun row => row.map (fun _ => (0 : ℚ)))

/-- Attribute mask (source lines 241-243 and 429-431):
`masked_class_attrs = np.zeros_like(class_attrs)` followed by the slice
assignment
`masked_class_attrs[off : off + c] = class_attrs[off : off + c]`
with `off = task * num_classes_per_task`. -/
def masked_class_attrs (classAttrs : List (List ℚ)) (task c : ℕ) :
    List (List ℚ) :=
  let z := zerosLike classAttrs
  let off := task * c
  z.take off ++ pySlice classAttrs off c ++ z.drop (off + c)

/-- Chunked scoring of one task's test set (source lines 435-452):
`total_test_samples / 10` full chunks at offsets `i * 10`, then a residual
chunk of `n % 10` examples at offset `(i + 1) * 10` for the final loop
variable `i`.  When `n / 10 = 0` the `for` loop body never runs, so the
residual line reads the unbound variable `i` and raises `NameError`;
that failure is modelled by `none`. -/
def chunkedCorrects (bits : List Bool) : Option ℕ :=
  let n := bits.length
  let q := n / 10
  if q = 0 then none
  else
    let full := (List.range q).foldl
      (fun acc i => acc + countTrue (pySlice bits (i * 10) 10)) 0
    some (full + countTrue (pySlice bits (q * 10) (n % 10)))

/-- Evaluator task loop (source lines 426-456).  `oracle task mask` gives
the per-example correctness bits the backend reports for that task's test
set under attribute matrix `mask`.  `maskVar` models the Python local
`masked_class_attrs`, which is only assigned inside the multi-head branch
(`eval_single_head = False`); reading it while still unassigned raises
`UnboundLocalError`, modelled by `none`. -/
def evalTasks (oracle : ℕ → List (List ℚ) → List Bool)
    (classAttrs : List (List ℚ)) (c : ℕ) (evalSingleHead : Bool) :
    ℕ → Option (List (List ℚ)) → List (List ℕ) → Option (List ℚ)
  | _, _, [] => some []
  | task, maskVar, _labels :: rest =>
    let maskVar' := if evalSingleHead then maskVar
      else some (masked_class_attrs classAttrs task c)
    match maskVar' with
    | none => none
    | some m =>
      let bits := oracle task m
      match chunkedCorrects bits with
      | none => none
      | some cor =>
        match evalTasks oracle classAttrs c evalSingleHead (task + 1) maskVar' rest with
        | none => none
        | some accs => some ((cor : ℚ) / (bits.length : ℚ) :: accs)

/-- `test_task_sequence` (source lines 411-462): scores every task of
`test_tasks` in order — the call sites (lines 251, 386, 391-392) always
pass the full `task_labels` list of the whole experiment. -/
def test_task_sequence (oracle : ℕ → List (List ℚ) → List Bool)
    (classAttrs : List (List ℚ)) (c : ℕ) (testTasks : List (List ℕ))
    (evalSingleHead : Bool) : Option (List ℚ) :=
  evalTasks oracle classAttrs c evalSingleHead 0 none testTasks

/-- Loss values as produced by the backend for one training step.  The
Python value is an IEEE float; the orchestrator only ever branches on
`math.isnan(loss)` and on `loss < loss_world.max()`, so finite values are
carried as exact rationals and the three non-finite float cases are kept
symbolic. -/
inductive Loss where
  | fin (q : ℚ)
  | nan
  | posInf
  | negInf
  deriving DecidableEq

/-- IEEE-style strict `<` on loss values: any comparison involving NaN is
false; `-inf < x` for every other `x`; `x < +inf` for finite `x`. -/
def lossLt : Loss → Loss → Bool
  | Loss.nan, _ => false
  | _, Loss.nan => false
  | Loss.negInf, Loss.negInf => false
  | Loss.negInf, _ => true
  | _, Loss.negInf => false
  | Loss.posInf, _ => false
  | Loss.fin _, Loss.posInf => true
  | Loss.fin a, Loss.fin b => decide (a < b)

/-- Pairwise maximum as used by `np.max` (NaN-propagating like numpy,
though `loss_world` never holds a NaN: a NaN loss exits the process
before the stagnation check runs). -/
def lossMax2 (a b : Loss) : Loss :=
  if a = Loss.nan ∨ b = Loss.nan then Loss.nan
  else if lossLt a b then b else a

/-- `loss_world.max()` over the nonempty `loss_world` array. -/
def maxW : List Loss → Loss
  | [] => Loss.nan
  | x :: xs => xs.foldl lossMax2 x

/-- `loss_world[np.argmax(loss_world)] = loss`: replace the first entry
equal to the maximum (numpy's `argmax` returns the first maximizing
index) by the new loss. -/
def replaceFirstMax : List Loss → Loss → Loss → List Loss
  | [], _, _ => []
  | x :: xs, m, l => if x = m then l :: xs else x :: replaceFirstMax xs m l

/-- Early-stopping state threaded through a run (source lines 186-190):
`loss_world`, the 4 lowest losses recorded so far, and `i_am_increasing`,
the count of consecutive non-improving checks. -/
structure ESState where
  world : List Loss
  inc : ℕ
  deriving DecidableEq

/-- `loss_world` initialization (lines 187-188): four entries, all
`float("inf")`. -/
def lossWorldInit : List Loss := List.replicate 4 Loss.posInf

/-- Early-stopping state at the start of a run. -/
def esInit : ESState := ⟨lossWorldInit, 0⟩

/-- `my_threshold = 4` (line 190). -/
def my_threshold : ℕ := 4

/-- One stagnation check (lines 332-341): if the current loss improves on
the largest of the four recorded lowest losses, record it and reset the
counter; otherwise bump the counter.  The loop breaks when the counter
exceeds `my_threshold`. -/
def esCheck (l : Loss) (s : ESState) : ESState × Bool :=
  let m := maxW s.world
  let s' := if lossLt l m then { world := replaceFirstMax s.world m l, inc := 0 }
            else { world := s.world, inc := s.inc + 1 }
  (s', decide (s'.inc > my_threshold))

/-- How one task's training loop ended: ran all its iterations, broke out
early via the stagnation check, or killed the whole process via
`sys.exit(0)` on a NaN loss. -/
inductive Halt where
  | none
  | early
  | fatal
  deriving DecidableEq

/-- Result of running (part of) a task's training loop: number of
iterations that executed, how the loop ended, final early-stopping
state. -/
structure LoopRes where
  executed : ℕ
  halt : Halt
  st : ESState
  deriving DecidableEq

/-- Control skeleton of the per-task training loop
(`for iters in range(num_iters)`, source lines 246 and 324-341), with the
backend's per-iteration loss abstracted as `f : ℕ → Loss`.  Each
iteration runs the training step, then exits the process if
`math.isnan(loss)` (lines 327-329; `isnan` is false on infinities), then
— when `iters > 1000 and iters % 100 == 0` — runs the stagnation check
and breaks when it fires (lines 331-341).  `i` is the current iteration
index and the second argument the number of iterations left in the
range. -/
def runLoop (f : ℕ → Loss) : ℕ → ℕ → ESState → LoopRes
  | _, 0, s => ⟨0, Halt.none, s⟩
  | i, fuel + 1, s =>
    if f i = Loss.nan then ⟨1, Halt.fatal, s⟩
    else if 1000 < i ∧ i % 100 = 0 then
      match esCheck (f i) s with
      | (s', true) => ⟨1, Halt.early, s'⟩
      | (s', false) =>
        let r := runLoop f (i + 1) fuel s'
        ⟨r.executed + 1, r.halt, r.st⟩
    else
      let r := runLoop f (i + 1) fuel s
      ⟨r.executed + 1, r.halt, r.st⟩

/-- One task's training loop, started at iteration 0 with `num_iters`
iterations to run and early-stopping state `s` carried over from earlier
tasks of the run. -/
def trainTaskLoop (f : ℕ → Loss) (numIters : ℕ) (s : ESState) : LoopRes :=
  runLoop f 0 numIters s

/-- Backend operations issued by the EWC branch of a training step
(source lines 265-274). -/
inductive EwcEvent where
  | initFisher (task iters : ℕ)
  | commitFisher (task iters : ℕ)
  | accumTmpFisher (task iters : ℕ)
  deriving DecidableEq

/-- EWC backend calls of one training step (lines 265-274): initialize
the running Fisher on the very first step of the very first task; every
`F = model.fisher_update_after` steps run `set_running_fisher` followed
by `reset_tmp_fisher`; on every step run `set_tmp_fisher` with the
gradient step. -/
def ewcStepEvents (F task iters : ℕ) : List EwcEvent :=
  (if task = 0 ∧ iters = 0 then [EwcEvent.initFisher task iters] else []) ++
  (if (iters + 1) % F = 0 then [EwcEvent.commitFisher task iters] else []) ++
  [EwcEvent.accumTmpFisher task iters]

/-- EWC events over the iterations one task's loop actually executes. -/
def ewcTaskEvents (F task numIters : ℕ) : List EwcEvent :=
  (List.range numIters).flatMap (ewcStepEvents F task)

/-- EWC events over a whole run; `itersOf t` is the number of iterations
task `t`'s loop executes. -/
def ewcRunEvents (F numTasks : ℕ) (itersOf : ℕ → ℕ) : List EwcEvent :=
  (List.range numTasks).flatMap (fun t => ewcTaskEvents F t (itersOf t))

/-- Recognizer for running-Fisher initializations in an EWC trace. -/
def isInitFisher : EwcEvent → Bool
  | EwcEvent.initFisher _ _ => true
  | _ => false

/-- GEM episodic memory (`task_based_memory`) at the moment training of
task `t` begins: after each earlier task, an entry is appended exactly
when that task is non-final (`task < len(datasets) - 1`, source lines
347 and 352-362).  Entries are tagged by the task they sample. -/
def gemMemAtStart (numTasks t : ℕ) : List ℕ :=
  (List.range t).foldl
    (fun mem task => if task < numTasks - 1 then mem ++ [task] else mem) []

/-- Modelled from the spec: `sample_from_dataset` (utils/utils.py, not
under src/) draws the per-class budget from the task's training set —
`samples_per_class` examples for each of the task's
`num_classes_per_task` classes.  The appended block is tagged here by
its source task index. -/
def replaySamples (samples_per_class num_classes_per_task task : ℕ) :
    List ℕ :=
  List.replicate (samples_per_class * num_classes_per_task) task

/-- Replay buffer (`last_task_x`/`last_task_y_`) after completing task
`k`: a block of samples is concatenated after each non-final task
(source lines 347 and 365-378), including task 0. -/
def replayBuf (numTasks s c k : ℕ) : List ℕ :=
  (List.range (k + 1)).foldl
    (fun buf task =>
      if task < numTasks - 1 then buf ++ replaySamples s c task else buf) []

/-- Batch offset (source line 254):
`offset = (iters * batch_size) % (num_train_examples - batch_size)` with
Python's floor-signed modulo; `none` models the `ZeroDivisionError`
raised when the divisor is zero. -/
def batchOffset (iters batch_size num_train : ℤ) : Option ℤ :=
  if num_train - batch_size = 0 then none
  else some (Int.fmod (iters * batch_size) (num_train - batch_size))

/-- Shift the executed-iteration count of a loop result by `d` (used to
re-attach a prefix of iterations that ran before the recorded part). -/
def addExec (d : ℕ) (r : LoopRes) : LoopRes :=
  ⟨r.executed + d, r.halt, r.st⟩

theorem countTrue_append (a b : List Bool) :
    countTrue (a ++ b) = countTrue a + countTrue b := by
  simp [countTrue, List.filter_append]

/-- The sum over the full 10-sized chunks equals the single-pass count of
the first `k * 10` examples. -/
theorem chunk_foldl_eq_take (bits : List Bool) :
    ∀ k, (List.range k).foldl
        (fun acc i => acc + countTrue (pySlice bits (i * 10) 10)) 0 =
      countTrue (bits.take (k * 10)) := by
  intro k
  induction k with
  | zero => simp [countTrue]
  | succ m ih =>
    rw [List.range_succ, List.foldl_append, ih]
    have h10 : (m + 1) * 10 = m * 10 + 10 := by ring
    rw [h10, List.take_add, countTrue_append]
    simp [pySlice]

/-- C4 (amended part): for a test set of at least 10 examples, the chunked
scorer returns exactly the single-pass correct count. -/
theorem chunked_eq_single_pass (bits : List Bool) (h : 10 ≤ bits.length) :
    chunkedCorrects bits = some (countTrue bits) := by
  have hq : bits.length / 10 ≠ 0 := by omega
  unfold chunkedCorrects
  simp only [hq, if_false]
  rw [chunk_foldl_eq_take]
  have hdroplen : (bits.drop (bits.length / 10 * 10)).length = bits.length % 10 := by
    rw [List.length_drop]
    omega
  have hres : pySlice bits (bits.length / 10 * 10) (bits.length % 10) =
      bits.drop (bits.length / 10 * 10) := by
    rw [pySlice, ← hdroplen, List.take_length]
  rw [hres]
  rw [← countTrue_append, List.take_append_drop]

/-- C4 witness: a 12-example test set (one full chunk plus a 2-example
remainder) scores identically chunked and in one pass. -/
theorem chunked_eq_single_pass_witness :
    10 ≤ (List.replicate 12 true).length ∧
    chunkedCorrects (List.replicate 12 true) =
      some (countTrue (List.replicate 12 true)) :=
  ⟨by decide, chunked_eq_single_pass (List.replicate 12 true) (by decide)⟩

/-- C4 counterexample: a 5-example test set has `5 / 10 = 0` full chunks,
so the chunk loop never runs and the residual line reads the unbound loop
variable `i` (`NameError`): scoring fails instead of counting the 5
examples once each. -/
theorem chunked_small_set_fails :
    chunkedCorrects (List.replicate 5 true) = none ∧
    countTrue (List.replicate 5 true) = 5 := by decide

/-- C9: when the assembled training set has strictly more examples than
the batch size, the batch offset lies in
`[0, num_train_examples - batch_size)` and every batch slice of a
length-`n` array (images, labels or sample weights) has exactly
`batch_size` elements; when it has exactly `batch_size` examples, the
offset computation divides modulo by zero and the step fails. -/
theorem batch_offset_safe (iters b n : ℕ) :
    (b < n →
      ∃ o : ℤ, batchOffset (iters : ℤ) (b : ℤ) (n : ℤ) = some o ∧
        0 ≤ o ∧ o < (n : ℤ) - (b : ℤ) ∧
        ∀ (α : Type) (xs : List α), xs.length = n →
          (pySlice xs o.toNat b).length = b) ∧
    ((n : ℕ) = b → batchOffset (iters : ℤ) (b : ℤ) (n : ℤ) = none) := by
  constructor
  · intro hbn
    have hpos : (0 : ℤ) < (n : ℤ) - (b : ℤ) := by omega
    refine ⟨((iters : ℤ) * b).fmod ((n : ℤ) - b), ?_, ?_, ?_, ?_⟩
    · unfold batchOffset
      rw [if_neg (by omega)]
    · rw [Int.fmod_eq_emod _ hpos.le]
      exact Int.emod_nonneg _ (by omega)
    · rw [Int.fmod_eq_emod _ hpos.le]
      exact Int.emod_lt_of_pos _ hpos
    · intro α xs hlen
      have h0 : 0 ≤ ((iters : ℤ) * b).fmod ((n : ℤ) - b) := by
        rw [Int.fmod_eq_emod _ hpos.le]
        exact Int.emod_nonneg _ (by omega)
      have hlt : ((iters : ℤ) * b).fmod ((n : ℤ) - b) < (n : ℤ) - b := by
        rw [Int.fmod_eq_emod _ hpos.le]
        exact Int.emod_lt_of_pos _ hpos
      have h2 : ((((iters : ℤ) * b).fmod ((n : ℤ) - b)).toNat : ℤ) =
          ((iters : ℤ) * b).fmod ((n : ℤ) - b) := Int.toNat_of_nonneg h0
      simp only [pySlice, List.length_take, List.length_drop, hlen]
      omega
  · intro hbn
    unfold batchOffset
    rw [if_pos (by omega)]

/-- C9 witness: at `iters = 3`, `batch_size = 16` the offset is safe for a
100-example training set and the modulo divides by zero for a 16-example
one. -/
theorem batch_offset_safe_witness :
    (∃ o : ℤ, batchOffset ((3 : ℕ) : ℤ) ((16 : ℕ) : ℤ) ((100 : ℕ) : ℤ) = some o ∧
      0 ≤ o ∧ o < ((100 : ℕ) : ℤ) - ((16 : ℕ) : ℤ) ∧
      ∀ (α : Type) (xs : List α), xs.length = 100 →
        (pySlice xs o.toNat 16).length = 16) ∧
    batchOffset ((5 : ℕ) : ℤ) ((16 : ℕ) : ℤ) ((16 : ℕ) : ℤ) = none :=
  ⟨(batch_offset_safe 3 16 100).1 (by decide),
   (batch_offset_safe 5 16 16).2 (by decide)⟩

/-- At the start of task `t < numTasks`, the GEM episodic memory equals
`[0, 1, …, t-1]`. -/
theorem gemMemAtStart_eq_range (numTasks : ℕ) :
    ∀ t, t < numTasks → gemMemAtStart numTasks t = List.range t := by
  intro t
  induction t with
  | zero => intro _; rfl
  | succ m ih =>
    intro h
    unfold gemMemAtStart at *
    rw [List.range_succ, List.foldl_append, ih (by omega)]
    simp only [List.foldl_cons, List.foldl_nil]
    rw [if_pos (by omega), ← List.range_succ]

/-- C10: at the moment training of task `t` begins, the GEM episodic
memory holds exactly `t` entries, one per previously completed task in
task order, so the reference-gradient loop over `prev_task ∈ range(task)`
always indexes an existing entry. -/
theorem gem_memory_aligned (numTasks t : ℕ) (h : t < numTasks) :
    gemMemAtStart numTasks t = List.range t ∧
    (gemMemAtStart numTasks t).length = t ∧
    ∀ p, p ∈ List.range t → p < (gemMemAtStart numTasks t).length := by
  have he := gemMemAtStart_eq_range numTasks t h
  refine ⟨he, ?_, ?_⟩
  · rw [he, List.length_range]
  · intro p hp
    rw [he, List.length_range]
    exact List.mem_range.mp hp

/-- C10 witness: with 3 tasks, task 2 starts with the two entries of
tasks 0 and 1 and the reference-gradient loop stays in bounds. -/
theorem gem_memory_aligned_witness :
    gemMemAtStart 3 2 = List.range 2 ∧
    (gemMemAtStart 3 2).length = 2 ∧
    ∀ p, p ∈ List.range 2 → p < (gemMemAtStart 3 2).length :=
  gem_memory_aligned 3 2 (by decide)

/-- One more completed task extends the replay buffer by exactly the new
task's sample block (empty for the final task). -/
theorem replayBuf_succ (numTasks s c k : ℕ) :
    replayBuf numTasks s c (k + 1) =
      replayBuf numTasks s c k ++
        (if k + 1 < numTasks - 1 then replaySamples s c (k + 1) else []) := by
  unfold replayBuf
  rw [List.range_succ, List.foldl_append]
  simp only [List.foldl_cons, List.foldl_nil]
  split <;> simp

/-- C5 (amended part): after completing task `k` the replay buffer holds
`min (k+1) (numTasks-1) × samples_per_class × num_classes_per_task`
entries — one block is appended after every non-final task, including
task 0 — and the buffer only ever grows: each later buffer extends the
earlier one by a (possibly empty) suffix. -/
theorem replay_buffer_law (numTasks s c k : ℕ) :
    (replayBuf numTasks s c k).length =
      min (k + 1) (numTasks - 1) * (s * c) ∧
    ∃ tail, replayBuf numTasks s c (k + 1) = replayBuf numTasks s c k ++ tail := by
  constructor
  · induction k with
    | zero =>
      unfold replayBuf
      have hr : List.range (0 + 1) = [0] := rfl
      rw [hr]
      simp only [List.foldl_cons, List.foldl_nil]
      split
      · next h =>
        have h1 : min 1 (numTasks - 1) = 1 := by omega
        simp [replaySamples, h1]
      · next h =>
        have h1 : numTasks - 1 = 0 := by omega
        simp [h1]
    | succ m ih =>
      rw [replayBuf_succ, List.length_append, ih]
      split
      · next h =>
        rw [replaySamples, List.length_replicate]
        have h1 : min (m + 1 + 1) (numTasks - 1) = min (m + 1) (numTasks - 1) + 1 := by
          omega
        rw [h1, Nat.succ_mul]
      · next h =>
        have h1 : min (m + 1 + 1) (numTasks - 1) = min (m + 1) (numTasks - 1) := by
          omega
        simp [h1]
  · exact ⟨_, replayBuf_succ numTasks s c k⟩

/-- C5 counterexample: with 3 tasks, 1 sample per class and 2 classes per
task, the replay buffer after completing task 0 already holds the 2
samples of task 0, while the claimed law
`k × samples_per_class × (classes observed so far)` evaluates to 0 at
`k = 0`. -/
theorem replay_size_claim_fails :
    (replayBuf 3 1 2 0).length = 2 ∧
    (replayBuf 3 1 2 0).length ≠ 0 * 1 * ((0 + 1) * 2) := by decide

/-- C3 (amended part): a NaN loss at the current iteration terminates the
process immediately — only that iteration executes, none of the loop's
remaining iterations run, and the loop result is the fatal
`sys.exit(0)`. -/
theorem nan_loss_exits_immediately (f : ℕ → Loss) (i fuel : ℕ) (s : ESState)
    (h : f i = Loss.nan) : runLoop f i (fuel + 1) s = ⟨1, Halt.fatal, s⟩ := by
  simp [runLoop, h]

/-- C3 witness: a loop of 4 iterations whose first loss is NaN executes
exactly one iteration and exits fatally. -/
theorem nan_loss_exits_immediately_witness :
    runLoop (fun _ => Loss.nan) 0 4 esInit = ⟨1, Halt.fatal, esInit⟩ :=
  nan_loss_exits_immediately (fun _ => Loss.nan) 0 3 esInit rfl

/-- C3 counterexample: an infinite loss is not caught — `math.isnan` is
false on `+inf` — so with loss `+inf` at iteration 0 the loop executes
iteration 1 as well: both iterations run and the loop ends normally. -/
theorem inf_loss_does_not_exit :
    runLoop (fun _ => Loss.posInf) 0 2 esInit = ⟨2, Halt.none, esInit⟩ := by
  decide

/-- C2: single-head evaluation never succeeds on any nonempty task list —
the single-head branch is `pass`, so the local `masked_class_attrs` is
read before any assignment on the very first task (`UnboundLocalError`)
instead of scoring against the full unmasked attribute matrix. -/
theorem single_head_eval_fails (oracle : ℕ → List (List ℚ) → List Bool)
    (A : List (List ℚ)) (c : ℕ) (l0 : List ℕ) (rest : List (List ℕ)) :
    test_task_sequence oracle A c (l0 :: rest) true = none := rfl

/-- A successful evaluator loop yields one accuracy per task of the list
it walks, whatever the starting task index and mask-variable state. -/
theorem evalTasks_length (oracle : ℕ → List (List ℚ) → List Bool)
    (A : List (List ℚ)) (c : ℕ) (sh : Bool) :
    ∀ (tasks : List (List ℕ)) (t : ℕ) (mv : Option (List (List ℚ)))
      (accs : List ℚ),
      evalTasks oracle A c sh t mv tasks = some accs →
      accs.length = tasks.length := by
  intro tasks
  induction tasks with
  | nil =>
    intro t mv accs h
    simp only [evalTasks, Option.some.injEq] at h
    subst h
    rfl
  | cons hd tl ih =>
    intro t mv accs h
    simp only [evalTasks] at h
    split at h
    · exact absurd h (by simp)
    · next m hm =>
      split at h
      · exact absurd h (by simp)
      · next cor hcor =>
        split at h
        · exact absurd h (by simp)
        · next accs' haccs =>
          simp only [Option.some.injEq] at h
          subst h
          simp only [List.length_cons]
          rw [ih _ _ _ haccs]

/-- C1 (amended part): whenever the Evaluator returns, it returns one
accuracy value per task of the entire task list it is handed — and every
call site hands it the full experiment task list, independent of how many
tasks have been trained so far. -/
theorem eval_one_acc_per_listed_task (oracle : ℕ → List (List ℚ) → List Bool)
    (A : List (List ℚ)) (c : ℕ) (tasks : List (List ℕ)) (sh : Bool)
    (accs : List ℚ) (h : test_task_sequence oracle A c tasks sh = some accs) :
    accs.length = tasks.length :=
  evalTasks_length oracle A c sh tasks 0 none accs h

/-- C1 witness: a one-task experiment evaluates to a one-entry accuracy
list. -/
theorem eval_one_acc_per_listed_task_witness :
    [((10 : ℕ) : ℚ) / ((List.replicate 10 true).length : ℚ)].length =
      ([[0]] : List (List ℕ)).length :=
  eval_one_acc_per_listed_task (fun _ _ => List.replicate 10 true)
    [[1]] 1 [[0]] false _ rfl

/-- C1 counterexample: with two tasks in the sequence, the evaluation run
after training only task 0 still returns two accuracy values — including
one for the not-yet-trained task 1 — not the single value the claim
demands. -/
theorem eval_returns_untrained_tasks :
    (test_task_sequence (fun _ _ => List.replicate 10 true) [[1], [1]] 1
        [[0], [1]] false).map List.length = some 2 ∧ (2 : ℕ) ≠ 0 + 1 :=
  ⟨rfl, by decide⟩

/-- Row `i` of the zero-initialized matrix is row `i` of the original
with every entry replaced by 0. -/
theorem zerosLike_getElem (A : List (List ℚ)) (i : ℕ) (h : i < A.length) :
    (zerosLike A)[i]? = some ((A[i]).map fun _ => (0 : ℚ)) := by
  unfold zerosLike
  rw [List.getElem?_map, List.getElem?_eq_getElem h]
  rfl

/-- C6: row `i` of the task-`t` attribute mask is row `i` of the full
class-attribute matrix exactly when `i` lies in task `t`'s class range
`[t*c, (t+1)*c)`, and an all-zero row of the same width otherwise. -/
theorem attr_mask_rows (A : List (List ℚ)) (t c i : ℕ) (h : i < A.length) :
    (masked_class_attrs A t c)[i]? =
      some (if t * c ≤ i ∧ i < (t + 1) * c then A[i]
            else (A[i]).map fun _ => (0 : ℚ)) := by
  have hsucc : (t + 1) * c = t * c + c := by ring
  have hz : (zerosLike A).length = A.length := List.length_map A _
  simp only [masked_class_attrs, pySlice]
  have hl1 : (List.take (t * c) (zerosLike A)).length = min (t * c) A.length := by
    rw [List.length_take, hz]
  have hlen12 : (List.take (t * c) (zerosLike A) ++
      List.take c (List.drop (t * c) A)).length =
      min (t * c) A.length + min c (A.length - t * c) := by
    rw [List.length_append, List.length_take, hz, List.length_take,
      List.length_drop]
  by_cases hi1 : i < t * c
  · rw [List.getElem?_append_left (by rw [hlen12]; omega),
      List.getElem?_append_left (by rw [hl1]; omega),
      List.getElem?_take, if_pos hi1, zerosLike_getElem A i h,
      if_neg (by omega)]
  · by_cases hi2 : i < t * c + c
    · rw [List.getElem?_append_left (by rw [hlen12]; omega),
        List.getElem?_append_right (by rw [hl1]; omega), hl1]
      have hmin : min (t * c) A.length = t * c := by omega
      rw [hmin, List.getElem?_take, if_pos (by omega), List.getElem?_drop]
      have hidx : t * c + (i - t * c) = i := by omega
      rw [hidx, List.getElem?_eq_getElem h, if_pos (by omega)]
    · rw [List.getElem?_append_right (by rw [hlen12]; omega), hlen12]
      have hm : min (t * c) A.length + min c (A.length - t * c) =
          t * c + c := by omega
      rw [hm, List.getElem?_drop]
      have hidx : t * c + c + (i - (t * c + c)) = i := by omega
      rw [hidx, zerosLike_getElem A i h, if_neg (by omega)]

/-- C6 witness: with 2 classes per task, the task-1 mask of a 4-row
attribute matrix keeps row 2 (inside task 1's range). -/
theorem attr_mask_rows_witness :
    2 < ([[(1 : ℚ), 2], [3, 4], [5, 6], [7, 8]] : List (List ℚ)).length ∧
    (masked_class_attrs [[(1 : ℚ), 2], [3, 4], [5, 6], [7, 8]] 1 2)[2]? =
      some (if 1 * 2 ≤ 2 ∧ 2 < (1 + 1) * 2
            then [[(1 : ℚ), 2], [3, 4], [5, 6], [7, 8]][2]
            else ([[(1 : ℚ), 2], [3, 4], [5, 6], [7, 8]][2]).map
              fun _ => (0 : ℚ)) :=
  ⟨by decide,
   attr_mask_rows [[(1 : ℚ), 2], [3, 4], [5, 6], [7, 8]] 1 2 2 (by decide)⟩

theorem ewcTaskEvents_succ (F task m : ℕ) :
    ewcTaskEvents F task (m + 1) =
      ewcTaskEvents F task m ++ ewcStepEvents F task m := by
  unfold ewcTaskEvents
  rw [List.range_succ, List.flatMap_append]
  simp

theorem ewcRunEvents_succ (F m : ℕ) (itersOf : ℕ → ℕ) :
    ewcRunEvents F (m + 1) itersOf =
      ewcRunEvents F m itersOf ++ ewcTaskEvents F m (itersOf m) := by
  unfold ewcRunEvents
  rw [List.range_succ, List.flatMap_append]
  simp

/-- Running-Fisher initializations contributed by one EWC step: one, for
the very first step of the very first task, none otherwise. -/
theorem filter_init_step (F task iters : ℕ) :
    (ewcStepEvents F task iters).filter isInitFisher =
      if task = 0 ∧ iters = 0 then [EwcEvent.initFisher 0 0] else [] := by
  unfold ewcStepEvents
  split_ifs with h1 h2 h2 <;>
    simp_all [List.filter_append, List.filter, isInitFisher]

theorem filter_init_task_zero (F : ℕ) :
    ∀ n, 0 < n →
      (ewcTaskEvents F 0 n).filter isInitFisher = [EwcEvent.initFisher 0 0] := by
  intro n
  induction n with
  | zero => intro h; omega
  | succ m ih =>
    intro _
    rw [ewcTaskEvents_succ, List.filter_append]
    rcases Nat.eq_zero_or_pos m with hm | hm
    · subst hm
      rw [show ewcTaskEvents F 0 0 = [] from rfl, filter_init_step,
        if_pos ⟨rfl, rfl⟩]
      rfl
    · rw [ih hm, filter_init_step, if_neg (by omega)]
      rfl

theorem filter_init_task_pos (F t : ℕ) (ht : t ≠ 0) :
    ∀ n, (ewcTaskEvents F t n).filter isInitFisher = [] := by
  intro n
  induction n with
  | zero => rfl
  | succ m ih =>
    rw [ewcTaskEvents_succ, List.filter_append, ih, filter_init_step,
      if_neg (by omega)]
    rfl

theorem filter_init_run (F : ℕ) (itersOf : ℕ → ℕ) (h1 : 0 < itersOf 0) :
    ∀ numTasks, 0 < numTasks →
      (ewcRunEvents F numTasks itersOf).filter isInitFisher =
        [EwcEvent.initFisher 0 0] := by
  intro numTasks
  induction numTasks with
  | zero => intro h; omega
  | succ m ih =>
    intro _
    rw [ewcRunEvents_succ, List.filter_append]
    rcases Nat.eq_zero_or_pos m with hm | hm
    · subst hm
      rw [show ewcRunEvents F 0 itersOf = [] from rfl,
        filter_init_task_zero F (itersOf 0) h1]
      rfl
    · rw [ih hm, filter_init_task_pos F m (by omega) (itersOf m)]
      rfl

theorem commit_mem_step (F t i t' i' : ℕ) :
    EwcEvent.commitFisher t i ∈ ewcStepEvents F t' i' ↔
      t = t' ∧ i = i' ∧ (i' + 1) % F = 0 := by
  unfold ewcStepEvents
  split_ifs <;> simp_all

theorem accum_mem_step (F t i t' i' : ℕ) :
    EwcEvent.accumTmpFisher t i ∈ ewcStepEvents F t' i' ↔
      t = t' ∧ i = i' := by
  unfold ewcStepEvents
  split_ifs <;> simp_all

theorem commit_mem_run (F numTasks : ℕ) (itersOf : ℕ → ℕ) (t i : ℕ) :
    EwcEvent.commitFisher t i ∈ ewcRunEvents F numTasks itersOf ↔
      t < numTasks ∧ i < itersOf t ∧ (i + 1) % F = 0 := by
  unfold ewcRunEvents ewcTaskEvents
  simp only [List.mem_flatMap, List.mem_range]
  constructor
  · rintro ⟨t', ht', i', hi', hmem⟩
    rcases (commit_mem_step F t i t' i').mp hmem with ⟨rfl, rfl, hc⟩
    exact ⟨ht', hi', hc⟩
  · rintro ⟨ht, hi, hc⟩
    exact ⟨t, ht, i, hi, (commit_mem_step F t i t i).mpr ⟨rfl, rfl, hc⟩⟩

theorem accum_mem_run (F numTasks : ℕ) (itersOf : ℕ → ℕ) (t i : ℕ) :
    EwcEvent.accumTmpFisher t i ∈ ewcRunEvents F numTasks itersOf ↔
      t < numTasks ∧ i < itersOf t := by
  unfold ewcRunEvents ewcTaskEvents
  simp only [List.mem_flatMap, List.mem_range]
  constructor
  · rintro ⟨t', ht', i', hi', hmem⟩
    rcases (accum_mem_step F t i t' i').mp hmem with ⟨rfl, rfl⟩
    exact ⟨ht', hi'⟩
  · rintro ⟨ht, hi⟩
    exact ⟨t, ht, i, hi, (accum_mem_step F t i t i).mpr ⟨rfl, rfl⟩⟩

/-- C7: in an EWC run with `fisher_update_after = 50`, the running Fisher
estimate is initialized exactly once — at task 0, iteration 0 — the
commit of the temporary Fisher into the running estimate (followed by the
accumulator reset) happens exactly at the iterations `i` of each task's
loop with `(i + 1) % 50 = 0` (i.e. 49, 99, 149, …), and the temporary
Fisher is accumulated on every executed step. -/
theorem ewc_fisher_cadence (numTasks : ℕ) (itersOf : ℕ → ℕ)
    (h0 : 0 < numTasks) (h1 : 0 < itersOf 0) :
    (ewcRunEvents 50 numTasks itersOf).filter isInitFisher =
        [EwcEvent.initFisher 0 0] ∧
    (∀ t i, EwcEvent.commitFisher t i ∈ ewcRunEvents 50 numTasks itersOf ↔
        t < numTasks ∧ i < itersOf t ∧ (i + 1) % 50 = 0) ∧
    (∀ t i, EwcEvent.accumTmpFisher t i ∈ ewcRunEvents 50 numTasks itersOf ↔
        t < numTasks ∧ i < itersOf t) :=
  ⟨filter_init_run 50 itersOf h1 numTasks h0,
   fun t i => commit_mem_run 50 numTasks itersOf t i,
   fun t i => accum_mem_run 50 numTasks itersOf t i⟩

/-- C7 witness: one task of 50 iterations — initialization exactly once
at (0, 0), a single commit at iteration 49, accumulation at every
step. -/
theorem ewc_fisher_cadence_witness :
    (ewcRunEvents 50 1 (fun _ => 50)).filter isInitFisher =
        [EwcEvent.initFisher 0 0] ∧
    (∀ t i, EwcEvent.commitFisher t i ∈ ewcRunEvents 50 1 (fun _ => 50) ↔
        t < 1 ∧ i < 50 ∧ (i + 1) % 50 = 0) ∧
    (∀ t i, EwcEvent.accumTmpFisher t i ∈ ewcRunEvents 50 1 (fun _ => 50) ↔
        t < 1 ∧ i < 50) :=
  ewc_fisher_cadence 1 (fun _ => 50) (by decide) (by decide)

/-- One-step unfolding: NaN loss ends the whole process at once. -/
theorem runLoop_succ_nan (f : ℕ → Loss) (i fuel : ℕ) (s : ESState)
    (h : f i = Loss.nan) : runLoop f i (fuel + 1) s = ⟨1, Halt.fatal, s⟩ := by
  rw [runLoop, if_pos h]

/-- One-step unfolding: a firing stagnation check breaks the loop. -/
theorem runLoop_succ_brk (f : ℕ → Loss) (i fuel : ℕ) (s s' : ESState)
    (hn : ¬f i = Loss.nan) (hck : 1000 < i ∧ i % 100 = 0)
    (hc : esCheck (f i) s = (s', true)) :
    runLoop f i (fuel + 1) s = ⟨1, Halt.early, s'⟩ := by
  rw [runLoop, if_neg hn, if_pos hck, hc]

/-- One-step unfolding: a non-firing stagnation check updates the state
and continues. -/
theorem runLoop_succ_cont (f : ℕ → Loss) (i fuel : ℕ) (s s' : ESState)
    (hn : ¬f i = Loss.nan) (hck : 1000 < i ∧ i % 100 = 0)
    (hc : esCheck (f i) s = (s', false)) :
    runLoop f i (fuel + 1) s = addExec 1 (runLoop f (i + 1) fuel s') := by
  rw [runLoop, if_neg hn, if_pos hck, hc]
  rfl

/-- One-step unfolding: an iteration that is not a check just passes
through. -/
theorem runLoop_succ_pass (f : ℕ → Loss) (i fuel : ℕ) (s : ESState)
    (hn : ¬f i = Loss.nan) (hck : ¬(1000 < i ∧ i % 100 = 0)) :
    runLoop f i (fuel + 1) s = addExec 1 (runLoop f (i + 1) fuel s) := by
  rw [runLoop, if_neg hn, if_neg hck]
  rfl

theorem runLoop_executed_le (f : ℕ → Loss) :
    ∀ (fuel i : ℕ) (s : ESState), (runLoop f i fuel s).executed ≤ fuel := by
  intro fuel
  induction fuel with
  | zero => intro i s; exact Nat.le_refl 0
  | succ n ih =>
    intro i s
    by_cases hn : f i = Loss.nan
    · rw [runLoop_succ_nan f i n s hn]
      show 1 ≤ n + 1
      omega
    · by_cases hck : 1000 < i ∧ i % 100 = 0
      · rcases hc : esCheck (f i) s with ⟨s', b⟩
        cases b
        · rw [runLoop_succ_cont f i n s s' hn hck hc]
          show (runLoop f (i + 1) n s').executed + 1 ≤ n + 1
          have := ih (i + 1) s'
          omega
        · rw [runLoop_succ_brk f i n s s' hn hck hc]
          show 1 ≤ n + 1
          omega
      · rw [runLoop_succ_pass f i n s hn hck]
        show (runLoop f (i + 1) n s).executed + 1 ≤ n + 1
        have := ih (i + 1) s
        omega

theorem runLoop_none_executed (f : ℕ → Loss) :
    ∀ (fuel i : ℕ) (s : ESState),
      (runLoop f i fuel s).halt = Halt.none →
      (runLoop f i fuel s).executed = fuel := by
  intro fuel
  induction fuel with
  | zero => intro i s _; rfl
  | succ n ih =>
    intro i s h
    by_cases hn : f i = Loss.nan
    · rw [runLoop_succ_nan f i n s hn] at h
      exact absurd h (by simp)
    · by_cases hck : 1000 < i ∧ i % 100 = 0
      · rcases hc : esCheck (f i) s with ⟨s', b⟩
        cases b
        · rw [runLoop_succ_cont f i n s s' hn hck hc] at h ⊢
          simp only [addExec] at h ⊢
          rw [ih (i + 1) s' h]
        · rw [runLoop_succ_brk f i n s s' hn hck hc] at h
          exact absurd h (by simp)
      · rw [runLoop_succ_pass f i n s hn hck] at h ⊢
        simp only [addExec] at h ⊢
        rw [ih (i + 1) s h]

theorem runLoop_no_nan (f : ℕ → Loss) :
    ∀ (fuel i : ℕ) (s : ESState),
      (∀ j, i ≤ j → j < i + fuel → f j ≠ Loss.nan) →
      (runLoop f i fuel s).halt ≠ Halt.fatal := by
  intro fuel
  induction fuel with
  | zero => intro i s _; simp [runLoop]
  | succ n ih =>
    intro i s hnan
    by_cases hn : f i = Loss.nan
    · exact absurd hn (hnan i (Nat.le_refl i) (by omega))
    · by_cases hck : 1000 < i ∧ i % 100 = 0
      · rcases hc : esCheck (f i) s with ⟨s', b⟩
        cases b
        · rw [runLoop_succ_cont f i n s s' hn hck hc]
          simp only [addExec]
          exact ih (i + 1) s' (fun j h1 h2 => hnan j (by omega) (by omega))
        · rw [runLoop_succ_brk f i n s s' hn hck hc]
          simp
      · rw [runLoop_succ_pass f i n s hn hck]
        simp only [addExec]
        exact ih (i + 1) s (fun j h1 h2 => hnan j (by omega) (by omega))

/-- Splitting a loop run whose first `d` iterations end without a halt:
the whole run is those `d` iterations followed by the rest, started from
the carried state. -/
theorem runLoop_append (f : ℕ → Loss) :
    ∀ (d i fuel : ℕ) (s : ESState),
      (runLoop f i d s).halt = Halt.none →
      runLoop f i (d + fuel) s =
        addExec d (runLoop f (i + d) fuel (runLoop f i d s).st) := by
  intro d
  induction d with
  | zero =>
    intro i fuel s _
    rw [Nat.zero_add]
    rfl
  | succ d ih =>
    intro i fuel s h
    have hstep : d + 1 + fuel = d + fuel + 1 := by omega
    by_cases hn : f i = Loss.nan
    · rw [runLoop_succ_nan f i d s hn] at h
      exact absurd h (by simp)
    · by_cases hck : 1000 < i ∧ i % 100 = 0
      · rcases hc : esCheck (f i) s with ⟨s', b⟩
        cases b
        · rw [runLoop_succ_cont f i d s s' hn hck hc] at h
          simp only [addExec] at h
          rw [hstep, runLoop_succ_cont f i (d + fuel) s s' hn hck hc,
            runLoop_succ_cont f i d s s' hn hck hc,
            ih (i + 1) fuel s' h,
            show i + 1 + d = i + (d + 1) from by omega]
          simp only [addExec]
          congr 1
        · rw [runLoop_succ_brk f i d s s' hn hck hc] at h
          exact absurd h (by simp)
      · rw [runLoop_succ_pass f i d s hn hck] at h
        simp only [addExec] at h
        rw [hstep, runLoop_succ_pass f i (d + fuel) s hn hck,
          runLoop_succ_pass f i d s hn hck,
          ih (i + 1) fuel s h,
          show i + 1 + d = i + (d + 1) from by omega]
        simp only [addExec]
        congr 1

/-- A loop run that halts within its first `d` iterations is unchanged by
granting it more iterations. -/
theorem runLoop_absorb (f : ℕ → Loss) :
    ∀ (d i fuel : ℕ) (s : ESState),
      (runLoop f i d s).halt ≠ Halt.none →
      runLoop f i (d + fuel) s = runLoop f i d s := by
  intro d
  induction d with
  | zero => intro i fuel s h; exact absurd rfl h
  | succ d ih =>
    intro i fuel s h
    have hstep : d + 1 + fuel = d + fuel + 1 := by omega
    by_cases hn : f i = Loss.nan
    · rw [hstep, runLoop_succ_nan f i (d + fuel) s hn,
        runLoop_succ_nan f i d s hn]
    · by_cases hck : 1000 < i ∧ i % 100 = 0
      · rcases hc : esCheck (f i) s with ⟨s', b⟩
        cases b
        · rw [runLoop_succ_cont f i d s s' hn hck hc] at h
          simp only [addExec] at h
          rw [hstep, runLoop_succ_cont f i (d + fuel) s s' hn hck hc,
            runLoop_succ_cont f i d s s' hn hck hc,
            ih (i + 1) fuel s' h]
        · rw [hstep, runLoop_succ_brk f i (d + fuel) s s' hn hck hc,
            runLoop_succ_brk f i d s s' hn hck hc]
      · rw [runLoop_succ_pass f i d s hn hck] at h
        simp only [addExec] at h
        rw [hstep, runLoop_succ_pass f i (d + fuel) s hn hck,
          runLoop_succ_pass f i d s hn hck,
          ih (i + 1) fuel s h]

/-- Iterations that are neither stagnation checks nor NaN exits just pass
through, leaving the early-stopping state untouched. -/
theorem runLoop_advance (f : ℕ → Loss) :
    ∀ (d i fuel : ℕ) (s : ESState),
      (∀ j, i ≤ j → j < i + d → ¬(1000 < j ∧ j % 100 = 0) ∧ f j ≠ Loss.nan) →
      runLoop f i (d + fuel) s = addExec d (runLoop f (i + d) fuel s) := by
  intro d
  induction d with
  | zero =>
    intro i fuel s _
    rw [Nat.zero_add]
    rfl
  | succ d ih =>
    intro i fuel s hcond
    have h0 := hcond i (Nat.le_refl i) (by omega)
    have hstep : d + 1 + fuel = d + fuel + 1 := by omega
    rw [hstep, runLoop_succ_pass f i (d + fuel) s h0.2 h0.1,
      ih (i + 1) fuel s (fun j h1 h2 => hcond j (by omega) (by omega)),
      show i + 1 + d = i + (d + 1) from by omega]
    simp only [addExec]
    congr 1

/-- Starting at a check iteration `p` whose next `m` checks are all
non-improving against the (then frozen) recorded losses, the loop breaks
early once the counter passes the threshold — within those `m` checks. -/
theorem streak_breaks (f : ℕ → Loss) :
    ∀ (m : ℕ), 0 < m → ∀ (p : ℕ) (s : ESState),
      1000 < p → p % 100 = 0 →
      (∀ j, j < m → lossLt (f (p + 100 * j)) (maxW s.world) = false) →
      (∀ j, p ≤ j → j ≤ p + 100 * (m - 1) → f j ≠ Loss.nan) →
      4 < s.inc + m →
      ∀ fuel, 100 * (m - 1) < fuel →
        (runLoop f p fuel s).halt = Halt.early ∧
        (runLoop f p fuel s).executed ≤ 100 * (m - 1) + 1 := by
  intro m
  induction m with
  | zero => intro h; omega
  | succ m ih =>
    intro _ p s hp hpm hni hnan hinc fuel hfuel
    obtain ⟨fuel', rfl⟩ : ∃ fuel', fuel = fuel' + 1 := ⟨fuel - 1, by omega⟩
    have hnanp : ¬f p = Loss.nan := hnan p (Nat.le_refl p) (by omega)
    have hni0 : lossLt (f p) (maxW s.world) = false := by
      have h := hni 0 (by omega)
      rwa [show p + 100 * 0 = p from by omega] at h
    have hcheck : esCheck (f p) s =
        (⟨s.world, s.inc + 1⟩, decide (s.inc + 1 > my_threshold)) := by
      dsimp only [esCheck]
      rw [hni0]
      simp
    by_cases hbrk : s.inc + 1 > my_threshold
    · have hc : esCheck (f p) s = (⟨s.world, s.inc + 1⟩, true) := by
        rw [hcheck, decide_eq_true hbrk]
      rw [runLoop_succ_brk f p fuel' s ⟨s.world, s.inc + 1⟩ hnanp ⟨hp, hpm⟩ hc]
      refine ⟨rfl, ?_⟩
      show 1 ≤ 100 * (m + 1 - 1) + 1
      omega
    · have hc : esCheck (f p) s = (⟨s.world, s.inc + 1⟩, false) := by
        rw [hcheck, decide_eq_false hbrk]
      have hm1 : 0 < m := by
        simp only [my_threshold] at hbrk
        omega
      rw [runLoop_succ_cont f p fuel' s ⟨s.world, s.inc + 1⟩ hnanp ⟨hp, hpm⟩ hc]
      obtain ⟨rest, rfl⟩ : ∃ rest, fuel' = 99 + rest := ⟨fuel' - 99, by omega⟩
      rw [runLoop_advance f 99 (p + 1) rest ⟨s.world, s.inc + 1⟩
        (fun j h1 h2 => ⟨fun hj => by omega, hnan j (by omega) (by omega)⟩),
        show p + 1 + 99 = p + 100 from by omega]
      have hih := ih hm1 (p + 100) ⟨s.world, s.inc + 1⟩ (by omega) (by omega)
        (fun j hj => by
          have h := hni (j + 1) (by omega)
          rwa [show p + 100 * (j + 1) = p + 100 + 100 * j from by ring] at h)
        (fun j h1 h2 => hnan j (by omega) (by omega))
        (by show 4 < s.inc + 1 + m; omega)
        rest (by omega)
      constructor
      · simp only [addExec]
        exact hih.1
      · simp only [addExec]
        have h2 := hih.2
        omega

/-- C8: if at five consecutive stagnation checks `k, …, k+4` (at
iterations `1100 + 100*k, …, 1100 + 100*(k+4)`) the loss fails to improve
on the largest of the four recorded lowest losses, no NaN occurs up to
the fifth such check, and the configured iteration count extends beyond
it, then the task's training loop breaks early: it executes fewer than
`numIters` iterations and ends with the early-stopping break — not the
fatal NaN exit — so the run proceeds to consolidation and evaluation. -/
theorem early_stopping_fires (f : ℕ → Loss) (numIters k : ℕ) (s0 : ESState)
    (hnan : ∀ i, i ≤ 1100 + 100 * (k + 4) → f i ≠ Loss.nan)
    (hni : ∀ j, k ≤ j → j ≤ k + 4 →
      lossLt (f (1100 + 100 * j))
        (maxW (runLoop f 0 (1100 + 100 * k) s0).st.world) = false)
    (hit : 1100 + 100 * (k + 4) + 1 < numIters) :
    (trainTaskLoop f numIters s0).halt = Halt.early ∧
    (trainTaskLoop f numIters s0).executed < numIters := by
  unfold trainTaskLoop
  obtain ⟨rest, hrest⟩ : ∃ rest, numIters = 1100 + 100 * k + rest :=
    ⟨numIters - (1100 + 100 * k), by omega⟩
  by_cases h1 : (runLoop f 0 (1100 + 100 * k) s0).halt = Halt.none
  · rw [hrest, runLoop_append f (1100 + 100 * k) 0 rest s0 h1, Nat.zero_add]
    have hstreak := streak_breaks f 5 (by omega) (1100 + 100 * k)
      (runLoop f 0 (1100 + 100 * k) s0).st (by omega) (by omega)
      (fun j hj => by
        have h := hni (k + j) (by omega) (by omega)
        rwa [show 1100 + 100 * (k + j) = 1100 + 100 * k + 100 * j from by ring]
          at h)
      (fun j hj1 hj2 => hnan j (by omega))
      (by omega)
      rest (by omega)
    constructor
    · simp only [addExec]
      exact hstreak.1
    · simp only [addExec]
      have h2 := hstreak.2
      omega
  · rw [hrest, runLoop_absorb f (1100 + 100 * k) 0 rest s0 h1]
    have hfat := runLoop_no_nan f (1100 + 100 * k) 0 s0
      (fun j _ hj => hnan j (by omega))
    have hexec := runLoop_executed_le f (1100 + 100 * k) 0 s0
    constructor
    · cases hhalt : (runLoop f 0 (1100 + 100 * k) s0).halt with
      | none => exact absurd hhalt h1
      | early => rfl
      | fatal => exact absurd hhalt hfat
    · omega

set_option maxRecDepth 100000 in
/-- C8 witness: a constant `+inf` loss never improves on the
`inf`-initialized record, so with 1502 configured iterations the loop
breaks early (at iteration 1500, the fifth check) instead of running all
1502. -/
theorem early_stopping_fires_witness :
    (trainTaskLoop (fun _ => Loss.posInf) 1502 esInit).halt = Halt.early ∧
    (trainTaskLoop (fun _ => Loss.posInf) 1502 esInit).executed < 1502 :=
  early_stopping_fires (fun _ => Loss.posInf) 1502 0 esInit
    (fun i _ h => Loss.noConfusion h)
    (fun j _ _ => by
      show lossLt Loss.posInf
        (maxW (runLoop (fun _ => Loss.posInf) 0 (1100 + 100 * 0)
          esInit).st.world) = false
      decide)
    (by decide)

end ConvSplitCub
